import Mathlib

/-!
Verification of the core numerical routines of the Hedge-Fund-Replication
repository (file tools.py): the excess-return transform make_ER, the
track simulator make_track, and the rolling-window regression estimators
ols_regression, ols_regression_ER and lasso_regression_ER.

Modelling conventions (shallow embedding):

* Prices, weights, rates and portfolio values are rationals, standing in
  for IEEE floats in exact arithmetic.
* Dates are integers (day numbers); the pandas day count
  (dates[i] - dates[i-1]).days is the integer difference.
* A pandas NaN cell is Option.none; NaN propagation through arithmetic is
  the none-absorbing match in each definition.
* pd.Series.reindex followed by ffill is modelled by reindexRates and
  ffill below.
* The external numerical collaborators are abstracted as parameters:
  scipy.optimize.minimize becomes a parameter
  solver : WindowProblem -> SolveResult (scipy always returns a vector x
  together with a success flag), and the pandas per-column sample standard
  deviation becomes a parameter std : List Rat -> Rat.  Everything the
  repository itself computes is defined concretely below.
* Tables keep the source's row-major iteration order: a price table is a
  list of (date, row-of-prices) pairs, a weight schedule a list of
  (date, row-of-weights) pairs, a rate series a list of (date, rate)
  pairs, all ordered by strictly increasing date as the data model
  requires.
-/

/-- Tail of a left scan: the list of successive states obtained by folding
f over l starting from s, one state per consumed element.  This is the
explicit-state rendering of the Python loops of tools.py
(for i in range(1, n) carrying mutable state from step to step). -/
def scanTail {σ α : Type} (f : σ → α → σ) : σ → List α → List σ
  | _, [] => []
  | s, a :: rest => f s a :: scanTail f (f s a) rest

/-- Series.ffill modelled as a scan: each output entry is the input entry
if present, otherwise the last defined value seen so far (initially
prev). -/
def ffill (prev : Option ℚ) (l : List (Option ℚ)) : List (Option ℚ) :=
  scanTail (fun p v => match v with | some r => some r | none => p) prev l

/-- rate.reindex(dates): the rate series evaluated at each requested date,
none (NaN) where the date is absent from the series. -/
def reindexRates (rate : List (ℤ × ℚ)) (dates : List ℤ) : List (Option ℚ) :=
  dates.map (fun d => (rate.find? (fun q => q.1 == d)).map (fun q => q.2))

/-- rate = rate.reindex(dates).ffill() (tools.py line 23). -/
def ffillRates (rate : List (ℤ × ℚ)) (dates : List ℤ) : List (Option ℚ) :=
  ffill none (reindexRates rate dates)

/-- Loop state of make_ER (tools.py lines 25-27): previous date, previous
price row, forward-filled rate at the previous date, previous
excess-return row. -/
structure ERState where
  date : ℤ
  px : List ℚ
  rate : Option ℚ
  er : List (Option ℚ)
deriving DecidableEq

/-- One iteration of the make_ER loop (tools.py lines 26-27):
price_ER.iloc[i] = price_ER.iloc[i-1] * (price.iloc[i] / price.iloc[i-1]
- rate.loc[dates[i-1]] * (dates[i] - dates[i-1]).days / 36000.), applied
per column; a NaN rate or a NaN previous entry makes the new entry NaN. -/
def erStep (st : ERState) (cur : (ℤ × List ℚ) × Option ℚ) : ERState :=
  { date := cur.1.1, px := cur.1.2, rate := cur.2,
    er := List.zipWith
      (fun e pq =>
        match e, st.rate with
        | some ev, some r =>
            some (ev * (pq.2 / pq.1 - r * ((cur.1.1 - st.date : ℤ) : ℚ) / 36000))
        | _, _ => none)
      st.er (st.px.zip cur.1.2) }

/-- make_ER(price, rate) (tools.py lines 10-29).  The first output row is
1.0 in every column; every later row is produced by erStep from the
previous row, the previous prices and the forward-filled rate at the
previous date. -/
def make_ER (price : List (ℤ × List ℚ)) (rate : List (ℤ × ℚ)) :
    List (List (Option ℚ)) :=
  match price with
  | [] => []
  | (d0, px0) :: rest =>
      let rs := ffillRates rate (((d0, px0) :: rest).map Prod.fst)
      let st0 : ERState := ⟨d0, px0, rs.headD none, px0.map (fun _ => some 1)⟩
      st0.er :: (scanTail erStep st0 (rest.zip rs.tail)).map ERState.er

/-- Price of column c at row i, 0 when out of range (used only to state
the spec-side cumulative-product value for the zero-rate claim). -/
def pxEntry (price : List (ℤ × List ℚ)) (i c : ℕ) : ℚ :=
  ((price[i]?).bind (fun q => q.2[c]?)).getD 0

/-- Spec-side value for the zero-rate claim: the cumulative product of the
simple price ratios price[s]/price[s-1] for s = 1..i, rebased to 1. -/
def cumRatio (price : List (ℤ × List ℚ)) (c : ℕ) : ℕ → ℚ
  | 0 => 1
  | i + 1 => cumRatio price c i * (pxEntry price (i + 1) c / pxEntry price i c)

/-- Loop state of make_track (tools.py lines 44-57): date and price row of
the step just processed, the track value at that date, and the share
holdings and cash balance in effect after processing it. -/
structure TrackState where
  date : ℤ
  px : List ℚ
  value : ℚ
  shares : List ℚ
  cash : ℚ
deriving DecidableEq

/-- One iteration of the make_track loop (tools.py lines 49-57).  If the
previous date is a rebalancing date (present in the weight schedule,
looked up with find? as pandas membership plus .loc on the unique date),
charge the L1 turnover cost, mark to market with pre-rebalance holdings,
then reset shares to the target weights at the new value and recompute
cash; otherwise mark to market with unchanged holdings and cash. -/
def trackStep (weight : List (ℤ × List ℚ)) (tc : ℚ) (st : TrackState) (cur : ℤ × List ℚ) :
    TrackState :=
  match weight.find? (fun q => q.1 == st.date) with
  | some qw =>
      let cost := tc * st.value *
        (List.zipWith (fun wc cw => |wc - cw|) qw.2
          (List.zipWith (fun sh p => sh * p / st.value) st.shares st.px)).sum
      let v := (List.zipWith (fun sh p => sh * p) st.shares cur.2).sum - cost + st.cash
      let sh2 := List.zipWith (fun wc p => wc * v / p) qw.2 cur.2
      { date := cur.1, px := cur.2, value := v, shares := sh2,
        cash := v - (List.zipWith (fun sh p => sh * p) sh2 cur.2).sum }
  | none =>
      { date := cur.1, px := cur.2,
        value := (List.zipWith (fun sh p => sh * p) st.shares cur.2).sum + st.cash,
        shares := st.shares, cash := st.cash }

/-- The sequence of make_track loop states, one per price row
(tools.py lines 41-57).  Initialization (lines 45-47): shares are the
first weight row divided by the first price row (the aligned case, first
weight date equal to the first price date, which the weight-schedule data
model guarantees), cash is 1 minus the initial holdings' value, and the
first track value is 1. -/
def trackStates (price weight : List (ℤ × List ℚ)) (tc : ℚ) : List TrackState :=
  match price, weight with
  | (d0, px0) :: rest, (_, w0) :: _ =>
      let sh := List.zipWith (fun w p => w / p) w0 px0
      let st0 : TrackState :=
        ⟨d0, px0, 1, sh, 1 - (List.zipWith (fun s p => s * p) sh px0).sum⟩
      st0 :: scanTail (trackStep weight tc) st0 rest
  | _, _ => []

/-- make_track(df_price, df_weight, tc) (tools.py lines 32-59): the value
series of the simulated track, one value per price-table date. -/
def make_track (price weight : List (ℤ × List ℚ)) (tc : ℚ) : List ℚ :=
  (trackStates price weight tc).map TrackState.value

/-- Result of one scipy.optimize.minimize call: the coefficient vector
res.x and the convergence flag res.success.  scipy returns both even when
the solve fails; the repository reads only res.x. -/
structure SolveResult where
  x : List ℚ
  success : Bool
deriving DecidableEq

/-- One window's constrained least-squares problem as the repository
assembles it before handing it to the solver (tools.py lines 75-86,
117-133, 163-180): the (possibly standardized) regressor rows and target
of the window, the coefficient of the L1 penalty term (lambda_ * n, zero
for the OLS variants), the shared per-instrument bounds, and the
equality-constraint right-hand side (none models the NaN sentinel,
meaning no budget constraint). -/
structure WindowProblem where
  x : List (List ℚ)
  y : List ℚ
  penalty : ℚ
  lo : Option ℚ
  hi : Option ℚ
  wsum : Option ℚ
deriving DecidableEq

/-- df.loc[start:end] for start = index[i*frequency] and
end = index[i*frequency + sample_length]: the label slice is inclusive on
both ends, so with strictly increasing unique dates it is the rows at
positions i*frequency .. i*frequency + sample_length. -/
def locSlice {α : Type} (l : List α) (frequency sample_length i : ℕ) : List α :=
  (l.drop (i * frequency)).take (sample_length + 1)

/-- Sum of squared residuals of x.z - y over the window rows (the loss
closure of tools.py lines 78-79, 125-126). -/
def residualSS (x : List (List ℚ)) (y : List ℚ) (z : List ℚ) : ℚ :=
  (List.zipWith (fun row yv => ((List.zipWith (fun a b => a * b) row z).sum - yv) ^ 2) x y).sum

/-- The objective actually minimized per window: residual sum of squares
plus the L1 penalty (tools.py lines 171-172; penalty = 0 reproduces the
OLS loss). -/
def objective (p : WindowProblem) (z : List ℚ) : ℚ :=
  residualSS p.x p.y z + p.penalty * (z.map (fun a => |a|)).sum

/-- The equality constraint the problem imposes on a candidate vector:
if a weight sum is present (weight_sum not NaN) the coordinates must sum
to it; a missing weight sum constrains nothing (tools.py lines 81-82,
128-129, 174-175). -/
def satisfiesConstraint (p : WindowProblem) (z : List ℚ) : Prop :=
  ∀ s, p.wsum = some s → z.sum = s

/-- The window problem built by ols_regression for window i
(tools.py lines 70-86): raw rows and target, no penalty. -/
def olsWindowProblem (y : List ℚ) (x : List (List ℚ)) (sample_length frequency : ℕ)
    (lo hi wsum : Option ℚ) (i : ℕ) : WindowProblem :=
  { x := locSlice x frequency sample_length i, y := locSlice y frequency sample_length i,
    penalty := 0, lo := lo, hi := hi, wsum := wsum }

/-- ols_regression(df_y, df_x, sample_length, frequency, boundaries,
weight_sum) (tools.py lines 62-90), with scipy.optimize.minimize
abstracted as the solver parameter.  One row per window, keyed by the
window's end date, holding res.x unconditionally (the code never reads
res.success). -/
def ols_regression (solver : WindowProblem → SolveResult) (index : List ℤ) (y : List ℚ)
    (x : List (List ℚ)) (sample_length frequency : ℕ) (lo hi wsum : Option ℚ) :
    List (ℤ × List ℚ) :=
  (List.range ((x.length - sample_length) / frequency)).map
    (fun i => (index.getD (i * frequency + sample_length) 0,
      (solver (olsWindowProblem y x sample_length frequency lo hi wsum i)).x))

/-- m = df_x.shape[1]: the number of regressor columns (the length of the
first row of the rectangular table). -/
def numCols (x : List (List ℚ)) : ℕ := (x.head?.map List.length).getD 0

/-- Column j of a window as a list (used to feed the per-column standard
deviation). -/
def colVals (rows : List (List ℚ)) (j : ℕ) : List ℚ := rows.map (fun r => r.getD j 0)

/-- std(...).replace(0, np.nan): the per-column sample standard deviation
with an exact zero replaced by NaN (tools.py lines 118, 122, 164, 168). -/
def stdOpt (std : List ℚ → ℚ) (v : List ℚ) : Option ℚ :=
  if std v = 0 then none else some (std v)

/-- x.std(axis=0).replace(0, np.nan) for a window of m columns. -/
def colStds (std : List ℚ → ℚ) (m : ℕ) (rows : List (List ℚ)) : List (Option ℚ) :=
  (List.range m).map (fun j => stdOpt std (colVals rows j))

/-- (x / std_x).replace(np.nan, 0): each row divided columnwise by the
std series; a NaN std makes the standardized column identically zero
(tools.py lines 119, 165). -/
def standardizeRows (stds : List (Option ℚ)) (rows : List (List ℚ)) : List (List ℚ) :=
  rows.map (fun r =>
    List.zipWith (fun v so => match so with | some sv => v / sv | none => 0) r stds)

/-- (y / std_y).replace(np.nan, 0) for the single target column
(tools.py lines 123, 169). -/
def standardizeCol (so : Option ℚ) (ys : List ℚ) : List ℚ :=
  ys.map (fun v => match so with | some sv => v / sv | none => 0)

/-- The window problem built by the standardized estimators for window i
(tools.py lines 112-133 and 159-180): standardized rows and target, the
given penalty coefficient (0 for ols_regression_ER, lambda_ * n for
lasso_regression_ER). -/
def erWindowProblem (std : List ℚ → ℚ) (y : List ℚ) (x : List (List ℚ))
    (sample_length frequency : ℕ) (lo hi wsum : Option ℚ) (penalty : ℚ) (i : ℕ) :
    WindowProblem :=
  { x := standardizeRows (colStds std (numCols x) (locSlice x frequency sample_length i))
      (locSlice x frequency sample_length i),
    y := standardizeCol (stdOpt std (locSlice y frequency sample_length i))
      (locSlice y frequency sample_length i),
    penalty := penalty, lo := lo, hi := hi, wsum := wsum }

/-- std_y.iloc[0] * res.x / std_x (tools.py lines 135, 182): the fitted
coefficients rescaled back to original units; a NaN standard deviation on
either side leaves NaN in the stored row. -/
def rescaleRow (std : List ℚ → ℚ) (y : List ℚ) (x : List (List ℚ))
    (sample_length frequency i : ℕ) (z : List ℚ) : List (Option ℚ) :=
  List.zipWith (fun zc so =>
      match stdOpt std (locSlice y frequency sample_length i), so with
      | some sy, some sx => some (sy * zc / sx)
      | _, _ => none)
    z (colStds std (numCols x) (locSlice x frequency sample_length i))

/-- ols_regression_ER(df_y, df_x, sample_length, frequency, boundaries,
weight_sum) (tools.py lines 93-137): the standardized OLS variant. -/
def ols_regression_ER (solver : WindowProblem → SolveResult) (std : List ℚ → ℚ)
    (index : List ℤ) (y : List ℚ) (x : List (List ℚ)) (sample_length frequency : ℕ)
    (lo hi wsum : Option ℚ) : List (ℤ × List (Option ℚ)) :=
  (List.range ((x.length - sample_length) / frequency)).map
    (fun i => (index.getD (i * frequency + sample_length) 0,
      rescaleRow std y x sample_length frequency i
        (solver (erWindowProblem std y x sample_length frequency lo hi wsum 0 i)).x))

/-- lasso_regression_ER(df_y, df_x, sample_length, frequency, lambda_,
boundaries, weight_sum) (tools.py lines 140-184): the standardized
L1-penalized variant; the penalty coefficient is lambda_ * n with n the
full regressor-table length (tools.py line 172). -/
def lasso_regression_ER (solver : WindowProblem → SolveResult) (std : List ℚ → ℚ)
    (index : List ℤ) (y : List ℚ) (x : List (List ℚ)) (sample_length frequency : ℕ)
    (lambda_ : ℚ) (lo hi wsum : Option ℚ) : List (ℤ × List (Option ℚ)) :=
  (List.range ((x.length - sample_length) / frequency)).map
    (fun i => (index.getD (i * frequency + sample_length) 0,
      rescaleRow std y x sample_length frequency i
        (solver (erWindowProblem std y x sample_length frequency lo hi wsum
          (lambda_ * (x.length : ℚ)) i)).x))

/-- A solver that reports non-convergence while still returning a vector,
as scipy does when SLSQP fails. -/
def failSolver : WindowProblem → SolveResult := fun _ => ⟨[42], false⟩

/-- A trivial always-converging solver returning a single zero
coefficient, for concrete instantiations. -/
def okSolver : WindowProblem → SolveResult := fun _ => ⟨[0], true⟩

/-- A degenerate standard-deviation function that is identically zero,
for concrete instantiations of the zero-variance path. -/
def zeroStd : List ℚ → ℚ := fun _ => 0

theorem scanTail_length {σ α : Type} (f : σ → α → σ) (s : σ) (l : List α) :
    (scanTail f s l).length = l.length := by
  induction l generalizing s with
  | nil => rfl
  | cons a rest ih => simp [scanTail, ih]

theorem scanTail_getElem?_zero {σ α : Type} (f : σ → α → σ) (s : σ) (l : List α) (a : α)
    (h : l[0]? = some a) : (scanTail f s l)[0]? = some (f s a) := by
  cases l with
  | nil => simp at h
  | cons b rest => simp at h; subst h; simp [scanTail]

theorem scanTail_getElem?_succ {σ α : Type} (f : σ → α → σ) (s : σ) (l : List α) (i : ℕ) (a : α)
    (h : l[i + 1]? = some a) :
    (scanTail f s l)[i + 1]? = ((scanTail f s l)[i]?).map (fun st => f st a) := by
  induction l generalizing s i with
  | nil => simp at h
  | cons b rest ih =>
      cases i with
      | zero =>
          have : rest[0]? = some a := by simpa using h
          simp only [scanTail, List.getElem?_cons_succ, List.getElem?_cons_zero, Option.map_some]
          exact scanTail_getElem?_zero f (f s b) rest a this
      | succ j =>
          have : rest[j + 1]? = some a := by simpa using h
          simpa [scanTail] using ih (f s b) j this

theorem scanTail_invariant {σ α : Type} {P : σ → Prop} (f : σ → α → σ)
    (hf : ∀ st a, P (f st a)) :
    ∀ (s : σ) (l : List α) (st : σ), st ∈ scanTail f s l → P st := by
  intro s l
  induction l generalizing s with
  | nil => intro st hst; simp [scanTail] at hst
  | cons a rest ih =>
      intro st hst
      rcases (by simpa [scanTail] using hst : st = f s a ∨ st ∈ scanTail f (f s a) rest) with
        h | h
      · exact h ▸ hf s a
      · exact ih (f s a) st h

theorem scanTail_records {σ α β : Type} (f : σ → α → σ) (g : σ → β) (h : α → β)
    (hrec : ∀ st a, g (f st a) = h a) :
    ∀ (s : σ) (l : List α) (i : ℕ) (st : σ) (a : α),
      (scanTail f s l)[i]? = some st → l[i]? = some a → g st = h a := by
  intro s l
  induction l generalizing s with
  | nil => intro i st a hst ha; simp at ha
  | cons b rest ih =>
      intro i st a hst ha
      cases i with
      | zero =>
          simp [scanTail] at hst ha
          rw [← hst, ha, hrec]
      | succ j =>
          have hst2 : (scanTail f (f s b) rest)[j]? = some st := by
            simpa [scanTail] using hst
          have ha2 : rest[j]? = some a := by simpa using ha
          exact ih (f s b) j st a hst2 ha2

theorem zipWith_getElem?_some {α β γ : Type} {f : α → β → γ} :
    ∀ (as : List α) (bs : List β) (i : ℕ) (a : α) (b : β),
      as[i]? = some a → bs[i]? = some b → (List.zipWith f as bs)[i]? = some (f a b) := by
  intro as
  induction as with
  | nil => intro bs i a b ha; simp at ha
  | cons x xs ih =>
      intro bs i a b ha hb
      cases bs with
      | nil => simp at hb
      | cons y ys =>
          cases i with
          | zero => simp_all
          | succ j => simpa using ih ys j a b (by simpa using ha) (by simpa using hb)

theorem zip_getElem?_some {α β : Type} (as : List α) (bs : List β) (i : ℕ) (a : α) (b : β)
    (ha : as[i]? = some a) (hb : bs[i]? = some b) : (as.zip bs)[i]? = some (a, b) :=
  zipWith_getElem?_some as bs i a b ha hb

theorem ffill_length (prev : Option ℚ) (l : List (Option ℚ)) :
    (ffill prev l).length = l.length := scanTail_length _ _ _

theorem ffillRates_length (rate : List (ℤ × ℚ)) (dates : List ℤ) :
    (ffillRates rate dates).length = dates.length := by
  simp [ffillRates, ffill_length, reindexRates]

theorem headD_of_getElem?_zero {α : Type} (l : List α) (d v : α) (h : l[0]? = some v) :
    l.headD d = v := by
  cases l <;> simp_all

theorem erStep_er_getElem? (st : ERState) (cur : (ℤ × List ℚ) × Option ℚ) (c : ℕ)
    (e p p2 r : ℚ) (hrate : st.rate = some r)
    (he : st.er[c]? = some (some e)) (hzip : (st.px.zip cur.1.2)[c]? = some (p, p2)) :
    (erStep st cur).er[c]? =
      some (some (e * (p2 / p - r * ((cur.1.1 - st.date : ℤ) : ℚ) / 36000))) := by
  simp only [erStep]
  rw [zipWith_getElem?_some st.er (st.px.zip cur.1.2) c (some e) (p, p2) he hzip]
  simp [hrate]

theorem make_ER_entry_step (price : List (ℤ × List ℚ)) (rate : List (ℤ × ℚ)) (i c : ℕ)
    (d d2 : ℤ) (px px2 : List ℚ) (p p2 e r : ℚ)
    (hp : price[i]? = some (d, px)) (hp2 : price[i + 1]? = some (d2, px2))
    (hr : (ffillRates rate (price.map Prod.fst))[i]? = some (some r))
    (hpx : px[c]? = some p) (hpx2 : px2[c]? = some p2)
    (he : ((make_ER price rate)[i]?).bind (fun row => row[c]?) = some (some e)) :
    ((make_ER price rate)[i + 1]?).bind (fun row => row[c]?) =
      some (some (e * (p2 / p - r * ((d2 - d : ℤ) : ℚ) / 36000))) := by
  rcases price with _ | ⟨⟨d0, px0⟩, rest⟩
  · simp at hp
  set rs := ffillRates rate (((d0, px0) :: rest).map Prod.fst) with hrs
  have hrs_len : rs.length = rest.length + 1 := by
    simp [hrs, ffillRates_length]
  have htail_len : rs.tail.length = rest.length := by
    simp [hrs_len]
  set row0 : List (Option ℚ) := px0.map (fun _ => some 1) with hrow0
  set zs : List ((ℤ × List ℚ) × Option ℚ) := rest.zip rs.tail with hzs
  have hT : make_ER ((d0, px0) :: rest) rate =
      row0 :: (scanTail erStep ⟨d0, px0, rs.headD none, row0⟩ zs).map ERState.er := by
    simp [make_ER, hzs, hrs, hrow0]
  cases i with
  | zero =>
      obtain ⟨hd0, hpx0⟩ : d0 = d ∧ px0 = px := by simpa using hp
      have hp2' : rest[0]? = some (d2, px2) := by simpa using hp2
      have hrate : rs.headD none = some r := headD_of_getElem?_zero rs none (some r) hr
      have he0 : row0[c]? = some (some e) := by
        rw [hT] at he
        simpa using he
      have hrest_pos : 0 < rest.length := by
        have := List.getElem?_mem hp2'
        exact List.length_pos.mpr (List.ne_nil_of_mem this)
      have hrr0 : rs.tail[0]? = some rs.tail[0] :=
        List.getElem?_eq_getElem (by omega)
      have hzs0 : zs[0]? = some ((d2, px2), rs.tail[0]) :=
        zip_getElem?_some rest rs.tail 0 _ _ hp2' hrr0
      have hscan0 : (scanTail erStep ⟨d0, px0, rs.headD none, row0⟩ zs)[0]? =
          some (erStep ⟨d0, px0, rs.headD none, row0⟩ ((d2, px2), rs.tail[0])) :=
        scanTail_getElem?_zero _ _ _ _ hzs0
      rw [hT]
      simp only [List.getElem?_cons_succ, List.getElem?_map, hscan0]
      have hrow := erStep_er_getElem? ⟨d0, px0, rs.headD none, row0⟩
        ((d2, px2), rs.tail[0]) c e p p2 r hrate he0
        (by rw [show (ERState.px ⟨d0, px0, rs.headD none, row0⟩) = px0 from rfl]
            rw [hpx0]
            exact zip_getElem?_some px px2 c p p2 hpx hpx2)
      simp only [Option.map_some', Option.some_bind]
      rw [hrow]
      simp [hd0]
  | succ j =>
      have hp' : rest[j]? = some (d, px) := by simpa using hp
      have hp2' : rest[j + 1]? = some (d2, px2) := by simpa using hp2
      have hrj : rs.tail[j]? = some (some r) := by
        rw [List.getElem?_tail]; exact hr
      have hzsj : zs[j]? = some ((d, px), some r) :=
        zip_getElem?_some rest rs.tail j _ _ hp' hrj
      rw [hT] at he
      simp only [List.getElem?_cons_succ, List.getElem?_map] at he
      have hescan : ∃ st, (scanTail erStep ⟨d0, px0, rs.headD none, row0⟩ zs)[j]? = some st ∧
          st.er[c]? = some (some e) := by
        rcases hmap : (scanTail erStep ⟨d0, px0, rs.headD none, row0⟩ zs)[j]? with _ | st
        · rw [hmap] at he; simp at he
        · rw [hmap] at he
          exact ⟨st, rfl, by simpa using he⟩
      obtain ⟨st, hscanj, hste⟩ := hescan
      have hcomp : (fun s : ERState => (s.date, s.px, s.rate)) st =
          (fun a : (ℤ × List ℚ) × Option ℚ => (a.1.1, a.1.2, a.2)) ((d, px), some r) :=
        scanTail_records erStep (fun s : ERState => (s.date, s.px, s.rate))
          (fun a : (ℤ × List ℚ) × Option ℚ => (a.1.1, a.1.2, a.2))
          (fun _ _ => rfl) _ zs j st _ hscanj hzsj
      have hstd : st.date = d := congrArg Prod.fst hcomp
      have hstp : st.px = px := congrArg (fun q => q.2.1) hcomp
      have hstr : st.rate = some r := congrArg (fun q => q.2.2) hcomp
      have hj2 : j + 1 < rest.length := by
        rcases List.getElem?_eq_some_iff.mp hp2' with ⟨hlt, _⟩
        exact hlt
      have hrr : rs.tail[j + 1]? = some rs.tail[j + 1] :=
        List.getElem?_eq_getElem (by omega)
      have hzsj2 : zs[j + 1]? = some ((d2, px2), rs.tail[j + 1]) :=
        zip_getElem?_some rest rs.tail (j + 1) _ _ hp2' hrr
      have hscanj2 : (scanTail erStep ⟨d0, px0, rs.headD none, row0⟩ zs)[j + 1]? =
          some (erStep st ((d2, px2), rs.tail[j + 1])) := by
        rw [scanTail_getElem?_succ erStep _ zs j _ hzsj2, hscanj]
        rfl
      rw [hT]
      simp only [List.getElem?_cons_succ, List.getElem?_map, hscanj2]
      have hrow := erStep_er_getElem? st ((d2, px2), rs.tail[j + 1]) c e p p2 r hstr hste
        (by rw [hstp]; exact zip_getElem?_some px px2 c p p2 hpx hpx2)
      simp only [Option.map_some', Option.some_bind]
      rw [hrow]
      simp [hstd]

/-- C1 (amended): for each date t with predecessor t-1 and each column
independently, make_ER computes
excess[t] = excess[t-1] * (price[t]/price[t-1]
            - rate[t-1] * days(t-1,t) / 36000.0),
where rate is the forward-filled short-rate series reindexed onto the
price grid.  The divisor the code uses is 36000 (rate quoted in
percentage points), not the 360 of the original claim. -/
theorem make_ER_recurrence_36000 (price : List (ℤ × List ℚ)) (rate : List (ℤ × ℚ)) (i c : ℕ)
    (d d2 : ℤ) (px px2 : List ℚ) (p p2 e r : ℚ)
    (hp : price[i]? = some (d, px)) (hp2 : price[i + 1]? = some (d2, px2))
    (hr : (ffillRates rate (price.map Prod.fst))[i]? = some (some r))
    (hpx : px[c]? = some p) (hpx2 : px2[c]? = some p2)
    (he : ((make_ER price rate)[i]?).bind (fun row => row[c]?) = some (some e)) :
    ((make_ER price rate)[i + 1]?).bind (fun row => row[c]?) =
      some (some (e * (p2 / p - r * ((d2 - d : ℤ) : ℚ) / 36000))) :=
  make_ER_entry_step price rate i c d d2 px px2 p p2 e r hp hp2 hr hpx hpx2 he

/-- C1 counterexample: with a single price column constant at 1 over two
dates one day apart and a rate of 0.025 (a decimal fraction, as the claim
reads it), the code produces 1 - 0.025/36000, while the claimed recursion
excess[1] = excess[0] * (price[1]/price[0] - rate * days / 360) demands
1 - 0.025/360.  The two numbers differ, refuting the claim as stated. -/
theorem make_ER_divisor_counterexample :
    ((make_ER [((0 : ℤ), [(1 : ℚ)]), (1, [1])] [((0 : ℤ), 1 / 40)])[1]?).bind
        (fun row => row[0]?) = some (some (1 - 1 / 1440000)) ∧
      some (some ((1 : ℚ) * (1 / 1 - 1 / 40 * (((1 : ℤ) - 0 : ℤ) : ℚ) / 360))) ≠
        some (some ((1 : ℚ) - 1 / 1440000)) := by
  constructor
  · norm_num [make_ER, ffillRates, reindexRates, ffill, scanTail, erStep, List.find?]
  · norm_num

/-- Witness for the amended C1 recurrence at a concrete table: two dates,
one column, prices 2 then 3, a rate of 5 at the first date. -/
theorem make_ER_recurrence_36000_witness :
    (ffillRates [((0 : ℤ), (5 : ℚ))] (([((0 : ℤ), [(2 : ℚ)]), (1, [3])].map Prod.fst)))[0]? =
        some (some 5) ∧
      ((make_ER [((0 : ℤ), [(2 : ℚ)]), (1, [3])] [((0 : ℤ), (5 : ℚ))])[0]?).bind
          (fun row => row[0]?) = some (some 1) ∧
      ((make_ER [((0 : ℤ), [(2 : ℚ)]), (1, [3])] [((0 : ℤ), (5 : ℚ))])[1]?).bind
          (fun row => row[0]?) =
        some (some (1 * (3 / 2 - 5 * (((1 : ℤ) - 0 : ℤ) : ℚ) / 36000))) := by
  refine ⟨?_, ?_, ?_⟩
  · norm_num [ffillRates, reindexRates, ffill, scanTail, List.find?]
  · norm_num [make_ER]
  · exact make_ER_recurrence_36000 [((0 : ℤ), [(2 : ℚ)]), (1, [3])] [((0 : ℤ), (5 : ℚ))]
      0 0 0 1 [2] [3] 2 3 1 5 (by norm_num) (by norm_num)
      (by norm_num [ffillRates, reindexRates, ffill, scanTail, List.find?])
      (by norm_num) (by norm_num) (by norm_num [make_ER])

/-- C9: if the forward-filled rate series is identically zero on the
price grid, the make_ER output at every date and column is the cumulative
product of the simple price ratios (the pure total-return index rebased
to 1). -/
theorem make_ER_zero_rate_cumprod (price : List (ℤ × List ℚ)) (rate : List (ℤ × ℚ)) (i c : ℕ)
    (hz : ∀ o ∈ ffillRates rate (price.map Prod.fst), o = some 0)
    (hc : ∀ q ∈ price, c < q.2.length)
    (hi : i < price.length) :
    ((make_ER price rate)[i]?).bind (fun row => row[c]?) =
      some (some (cumRatio price c i)) := by
  induction i with
  | zero =>
      rcases price with _ | ⟨⟨d0, px0⟩, rest⟩
      · simp at hi
      have hc0 : c < px0.length := hc (d0, px0) (List.mem_cons_self _ _)
      have : px0[c]? = some px0[c] := List.getElem?_eq_getElem hc0
      simp [make_ER, cumRatio, List.getElem?_map, this, List.getElem?_replicate, hc0]
  | succ j ih =>
      have hj : j < price.length := Nat.lt_of_succ_lt hi
      have hpj : price[j]? = some price[j] := List.getElem?_eq_getElem hj
      have hpj1 : price[j + 1]? = some price[j + 1] := List.getElem?_eq_getElem hi
      have hc1 : c < (price[j]).2.length := hc _ (List.getElem_mem hj)
      have hc2 : c < (price[j + 1]).2.length := hc _ (List.getElem_mem hi)
      have hpxc1 : (price[j]).2[c]? = some (price[j]).2[c] := List.getElem?_eq_getElem hc1
      have hpxc2 : (price[j + 1]).2[c]? = some (price[j + 1]).2[c] :=
        List.getElem?_eq_getElem hc2
      have hfl : j < (ffillRates rate (price.map Prod.fst)).length := by
        rw [ffillRates_length]
        simpa using hj
      have hrj : (ffillRates rate (price.map Prod.fst))[j]? =
          some ((ffillRates rate (price.map Prod.fst))[j]) := List.getElem?_eq_getElem hfl
      have hz0 : (ffillRates rate (price.map Prod.fst))[j] = some 0 :=
        hz _ (List.getElem_mem hfl)
      have step := make_ER_entry_step price rate j c (price[j]).1 (price[j + 1]).1
        (price[j]).2 (price[j + 1]).2 (price[j]).2[c] (price[j + 1]).2[c]
        (cumRatio price c j) 0 (by simpa using hpj) (by simpa using hpj1)
        (by rw [hrj, hz0]) hpxc1 hpxc2 (ih hj)
      have hpe1 : pxEntry price j c = (price[j]).2[c] := by
        simp [pxEntry, hpj, hpxc1]
      have hpe2 : pxEntry price (j + 1) c = (price[j + 1]).2[c] := by
        simp [pxEntry, hpj1, hpxc2]
      rw [step]
      simp [cumRatio, hpe1, hpe2]

/-- Witness for the zero-rate cumulative-product property at a concrete
two-date table with prices 2 then 3 and a zero rate at the first date. -/
theorem make_ER_zero_rate_cumprod_witness :
    (∀ o ∈ ffillRates [((0 : ℤ), (0 : ℚ))] ([((0 : ℤ), [(2 : ℚ)]), (1, [3])].map Prod.fst),
        o = some 0) ∧
      ((make_ER [((0 : ℤ), [(2 : ℚ)]), (1, [3])] [((0 : ℤ), (0 : ℚ))])[1]?).bind
          (fun row => row[0]?) =
        some (some (cumRatio [((0 : ℤ), [(2 : ℚ)]), (1, [3])] 0 1)) := by
  have hz : ∀ o ∈ ffillRates [((0 : ℤ), (0 : ℚ))]
      ([((0 : ℤ), [(2 : ℚ)]), (1, [3])].map Prod.fst), o = some 0 := by
    intro o ho
    have : ffillRates [((0 : ℤ), (0 : ℚ))] ([((0 : ℤ), [(2 : ℚ)]), (1, [3])].map Prod.fst) =
        [some 0, some 0] := by
      norm_num [ffillRates, reindexRates, ffill, scanTail, List.find?]
      rfl
    rw [this] at ho
    simpa using ho
  exact ⟨hz, make_ER_zero_rate_cumprod [((0 : ℤ), [(2 : ℚ)]), (1, [3])]
    [((0 : ℤ), (0 : ℚ))] 1 0 hz (by norm_num) (by norm_num)⟩

/-- C2: at every simulation date whose predecessor is a rebalancing date,
make_track charges the L1 turnover cost
tc * value[t-1] * sum |target_weight[t-1] - shares*price[t-1]/value[t-1]|,
sets value[t] = sum(shares*price[t]) - cost + cash with the pre-rebalance
holdings, then replaces the holdings by
shares = target_weight[t-1] * value[t] / price[t] and the cash by
value[t] - sum(new_shares * price[t]). -/
theorem make_track_rebalance_step (price weight : List (ℤ × List ℚ)) (tc : ℚ) (i : ℕ)
    (st : TrackState) (d : ℤ) (px : List ℚ) (qw : ℤ × List ℚ)
    (hst : (trackStates price weight tc)[i]? = some st)
    (hp : price[i + 1]? = some (d, px))
    (hw : weight.find? (fun q => q.1 == st.date) = some qw) :
    ∃ st2, (trackStates price weight tc)[i + 1]? = some st2 ∧
      st2.value = (List.zipWith (fun sh p => sh * p) st.shares px).sum
          - tc * st.value *
            (List.zipWith (fun wc cw => |wc - cw|) qw.2
              (List.zipWith (fun sh p => sh * p / st.value) st.shares st.px)).sum
          + st.cash ∧
      st2.shares = List.zipWith (fun wc p => wc * st2.value / p) qw.2 px ∧
      st2.cash = st2.value - (List.zipWith (fun sh p => sh * p) st2.shares px).sum ∧
      st2.date = d ∧ st2.px = px := by
  rcases price with _ | ⟨⟨d0, px0⟩, rest⟩
  · simp [trackStates] at hst
  rcases weight with _ | ⟨⟨dw0, w0⟩, wrest⟩
  · simp [trackStates] at hst
  set sh := List.zipWith (fun w p => w / p) w0 px0 with hsh
  set st0 : TrackState :=
    ⟨d0, px0, 1, sh, 1 - (List.zipWith (fun s p => s * p) sh px0).sum⟩ with hst0
  have hT : trackStates ((d0, px0) :: rest) ((dw0, w0) :: wrest) tc =
      st0 :: scanTail (trackStep ((dw0, w0) :: wrest) tc) st0 rest := by
    simp [trackStates, hst0, hsh]
  have hp' : rest[i]? = some (d, px) := by simpa using hp
  have hnext : (scanTail (trackStep ((dw0, w0) :: wrest) tc) st0 rest)[i]? =
      some (trackStep ((dw0, w0) :: wrest) tc st (d, px)) := by
    cases i with
    | zero =>
        rw [hT] at hst
        have : st0 = st := by simpa using hst
        rw [← this] at hw ⊢
        exact scanTail_getElem?_zero _ _ _ _ hp'
    | succ j =>
        rw [hT] at hst
        have hstj : (scanTail (trackStep ((dw0, w0) :: wrest) tc) st0 rest)[j]? = some st := by
          simpa using hst
        rw [scanTail_getElem?_succ _ _ _ j _ hp', hstj]
        rfl
  refine ⟨trackStep ((dw0, w0) :: wrest) tc st (d, px), ?_, ?_⟩
  · rw [hT]
    simpa using hnext
  · simp [trackStep, hw]

/-- Witness for the rebalance-step property: two dates, one instrument,
prices 2 then 4, a single weight row of 1 at the first date, transaction
cost rate 1/100. -/
theorem make_track_rebalance_step_witness :
    (trackStates [((0 : ℤ), [(2 : ℚ)]), (1, [4])] [((0 : ℤ), [(1 : ℚ)])] (1 / 100))[0]? =
        some ⟨0, [2], 1, [1 / 2], 0⟩ ∧
      List.find? (fun q => q.1 == (0 : ℤ)) [((0 : ℤ), [(1 : ℚ)])] = some (0, [1]) ∧
      ∃ st2,
        (trackStates [((0 : ℤ), [(2 : ℚ)]), (1, [4])] [((0 : ℤ), [(1 : ℚ)])] (1 / 100))[1]? =
            some st2 ∧
          st2.value = (List.zipWith (fun sh p => sh * p) [(1 : ℚ) / 2] [(4 : ℚ)]).sum
              - 1 / 100 * 1 *
                (List.zipWith (fun wc cw => |wc - cw|) [(1 : ℚ)]
                  (List.zipWith (fun sh p => sh * p / 1) [(1 : ℚ) / 2] [(2 : ℚ)])).sum
              + 0 ∧
          st2.shares = List.zipWith (fun wc p => wc * st2.value / p) [(1 : ℚ)] [(4 : ℚ)] ∧
          st2.cash = st2.value - (List.zipWith (fun sh p => sh * p) st2.shares [(4 : ℚ)]).sum ∧
          st2.date = 1 ∧ st2.px = [4] := by
  have h0 : (trackStates [((0 : ℤ), [(2 : ℚ)]), (1, [4])] [((0 : ℤ), [(1 : ℚ)])] (1 / 100))[0]? =
      some ⟨0, [2], 1, [1 / 2], 0⟩ := by
    norm_num [trackStates]
  have h1 : List.find? (fun q => q.1 == (0 : ℤ)) [((0 : ℤ), [(1 : ℚ)])] = some (0, [1]) := by
    norm_num [List.find?]
  exact ⟨h0, h1, make_track_rebalance_step [((0 : ℤ), [(2 : ℚ)]), (1, [4])]
    [((0 : ℤ), [(1 : ℚ)])] (1 / 100) 0 ⟨0, [2], 1, [1 / 2], 0⟩ 1 [4] (0, [1])
    h0 (by norm_num) h1⟩

/-- C10: at every simulated date, including the first, the track value
equals the market value of the current holdings at that date's prices
plus the current cash balance; initialization, the rebalance branch and
the mark-to-market branch all preserve this accounting identity. -/
theorem track_accounting_invariant (price weight : List (ℤ × List ℚ)) (tc : ℚ) :
    ∀ st ∈ trackStates price weight tc,
      st.value = (List.zipWith (fun sh p => sh * p) st.shares st.px).sum + st.cash := by
  rcases price with _ | ⟨⟨d0, px0⟩, rest⟩
  · simp [trackStates]
  rcases weight with _ | ⟨⟨dw0, w0⟩, wrest⟩
  · simp [trackStates]
  intro st hst
  have hf : ∀ (s : TrackState) (a : ℤ × List ℚ),
      (trackStep ((dw0, w0) :: wrest) tc s a).value =
        (List.zipWith (fun sh p => sh * p) (trackStep ((dw0, w0) :: wrest) tc s a).shares
            (trackStep ((dw0, w0) :: wrest) tc s a).px).sum
          + (trackStep ((dw0, w0) :: wrest) tc s a).cash := by
    intro s a
    cases hfind : List.find? (fun q => q.1 == s.date) ((dw0, w0) :: wrest) with
    | none => simp [trackStep, hfind]
    | some qw => simp [trackStep, hfind]
  rcases List.mem_cons.mp (by simpa [trackStates] using hst) with h | h
  · subst h
    simp
  · exact @scanTail_invariant TrackState (ℤ × List ℚ)
      (fun s : TrackState =>
        s.value = (List.zipWith (fun sh p => sh * p) s.shares s.px).sum + s.cash)
      (trackStep ((dw0, w0) :: wrest) tc) hf _ rest st h

/-- Witness for the accounting invariant at the second state of a
concrete two-date simulation. -/
theorem track_accounting_invariant_witness :
    (⟨1, [2], 2, [1], 0⟩ : TrackState) ∈
        trackStates [((0 : ℤ), [(1 : ℚ)]), (1, [2])] [((0 : ℤ), [(1 : ℚ)])] 0 ∧
      (⟨1, [2], 2, [1], 0⟩ : TrackState).value =
        (List.zipWith (fun sh p => sh * p) (⟨1, [2], 2, [1], 0⟩ : TrackState).shares
            (⟨1, [2], 2, [1], 0⟩ : TrackState).px).sum
          + (⟨1, [2], 2, [1], 0⟩ : TrackState).cash := by
  have hm : (⟨1, [2], 2, [1], 0⟩ : TrackState) ∈
      trackStates [((0 : ℤ), [(1 : ℚ)]), (1, [2])] [((0 : ℤ), [(1 : ℚ)])] 0 := by
    have : trackStates [((0 : ℤ), [(1 : ℚ)]), (1, [2])] [((0 : ℤ), [(1 : ℚ)])] 0 =
        [⟨0, [1], 1, [1], 0⟩, ⟨1, [2], 2, [1], 0⟩] := by
      norm_num [trackStates, scanTail, trackStep, List.find?]
    rw [this]
    simp
  exact ⟨hm, track_accounting_invariant [((0 : ℤ), [(1 : ℚ)]), (1, [2])]
    [((0 : ℤ), [(1 : ℚ)])] 0 _ hm⟩

theorem cost_zero (w px0 : List ℚ) (hpx : ∀ p ∈ px0, p ≠ 0) :
    (List.zipWith (fun wc cw => |wc - cw|) w
      (List.zipWith (fun sh p => sh * p)
        (List.zipWith (fun a b => a / b) w px0) px0)).sum = 0 := by
  induction w generalizing px0 with
  | nil => simp
  | cons a as ih =>
      cases px0 with
      | nil => simp
      | cons p ps =>
          have hp : p ≠ 0 := hpx p (by simp)
          have hrest := ih ps (fun q hq => hpx q (by simp [hq]))
          simp [hrest, div_mul_cancel₀ _ hp]

theorem scanTail_mark_to_market (weight : List (ℤ × List ℚ)) (tc : ℚ) :
    ∀ (rows : List (ℤ × List ℚ)) (st : TrackState),
      weight.find? (fun q => q.1 == st.date) = none →
      (∀ q ∈ rows, weight.find? (fun q2 => q2.1 == q.1) = none) →
      scanTail (trackStep weight tc) st rows =
        rows.map (fun q => ⟨q.1, q.2,
          (List.zipWith (fun sh p => sh * p) st.shares q.2).sum + st.cash,
          st.shares, st.cash⟩) := by
  intro rows
  induction rows with
  | nil => intro st h0 hrows; simp [scanTail]
  | cons q rest ih =>
      intro st h0 hrows
      have hstep : trackStep weight tc st q = ⟨q.1, q.2,
          (List.zipWith (fun sh p => sh * p) st.shares q.2).sum + st.cash,
          st.shares, st.cash⟩ := by
        simp [trackStep, h0]
      have hrec := ih ⟨q.1, q.2,
          (List.zipWith (fun sh p => sh * p) st.shares q.2).sum + st.cash,
          st.shares, st.cash⟩ (hrows q (by simp)) (fun r hr => hrows r (by simp [hr]))
      simp only [scanTail, hstep, hrec, List.map_cons]

/-- C3 (amended): with a single-row weight schedule dated at the first
price date, make_track performs exactly one rebalance, at the first step
after t0 (because index[0] is in the schedule's index); the cost charged
there is zero (current weights equal target weights exactly), so
value[1] = sum(shares0*price[1]) + cash0, but the holdings are then reset
to shares1 = w*value[1]/price[1] with cash1 = value[1] -
sum(shares1*price[1]), and every later value is the mark-to-market of
those post-rebalance holdings: value[t] = sum(shares1*price[t]) + cash1.
The originally claimed static path sum(shares0*price[t]) + cash0 holds
for t >= 2 only when it happens to coincide with this one. -/
theorem make_track_single_schedule (d0 : ℤ) (px0 : List ℚ) (rest : List (ℤ × List ℚ))
    (w : List ℚ) (tc : ℚ)
    (hpx : ∀ p ∈ px0, p ≠ 0) (hd : ∀ q ∈ rest, q.1 ≠ d0) :
    make_track ((d0, px0) :: rest) [(d0, w)] tc =
      1 :: (match rest with
        | [] => []
        | (d1, px1) :: rest2 =>
            let sh0 := List.zipWith (fun a b => a / b) w px0
            let cash0 := 1 - (List.zipWith (fun s p => s * p) sh0 px0).sum
            let v1 := (List.zipWith (fun sh p => sh * p) sh0 px1).sum + cash0
            let sh1 := List.zipWith (fun wc p => wc * v1 / p) w px1
            let cash1 := v1 - (List.zipWith (fun sh p => sh * p) sh1 px1).sum
            v1 :: rest2.map (fun q =>
              (List.zipWith (fun sh p => sh * p) sh1 q.2).sum + cash1)) := by
  rcases rest with _ | ⟨⟨d1, px1⟩, rest2⟩
  · simp [make_track, trackStates, scanTail]
  have hfind1 : ∀ dd : ℤ, dd ≠ d0 → List.find? (fun q => q.1 == dd) [(d0, w)] = none := by
    intro dd hdd
    have : (d0 == dd) = false := beq_eq_false_iff_ne.mpr (Ne.symm hdd)
    simp [List.find?, this]
  have hd1 : d1 ≠ d0 := hd (d1, px1) (by simp)
  set sh0 := List.zipWith (fun a b => a / b) w px0 with hsh0
  set cash0 := 1 - (List.zipWith (fun s p => s * p) sh0 px0).sum with hcash0
  set v1 := (List.zipWith (fun sh p => sh * p) sh0 px1).sum + cash0 with hv1
  set sh1 := List.zipWith (fun wc p => wc * v1 / p) w px1 with hsh1
  set cash1 := v1 - (List.zipWith (fun sh p => sh * p) sh1 px1).sum with hcash1
  have hstep : trackStep [(d0, w)] tc (⟨d0, px0, 1, sh0, cash0⟩ : TrackState) (d1, px1) =
      ⟨d1, px1, v1, sh1, cash1⟩ := by
    have hfind0 : List.find? (fun q => q.1 == (d0 : ℤ)) [(d0, w)] = some (d0, w) := by
      simp [List.find?]
    simp only [trackStep, hfind0]
    have hc : (List.zipWith (fun wc cw => |wc - cw|) w
        (List.zipWith (fun sh p => sh * p / (1 : ℚ)) sh0 px0)).sum = 0 := by
      have : List.zipWith (fun sh p => sh * p / (1 : ℚ)) sh0 px0 =
          List.zipWith (fun sh p => sh * p) sh0 px0 := by
        simp
      rw [this, hsh0]
      exact cost_zero w px0 hpx
    rw [TrackState.mk.injEq]
    have hval : (List.zipWith (fun sh p => sh * p) sh0 px1).sum - tc * 1 *
        (List.zipWith (fun wc cw => |wc - cw|) w
          (List.zipWith (fun sh p => sh * p / (1 : ℚ)) sh0 px0)).sum + cash0 = v1 := by
      rw [hc, hv1]
      ring
    simp only [hval, ← hsh1, ← hcash1]
    simp
  have hmark := scanTail_mark_to_market [(d0, w)] tc rest2 ⟨d1, px1, v1, sh1, cash1⟩
    (hfind1 d1 hd1) (fun r hr => hfind1 r.1 (hd r (by simp [hr])))
  show (trackStates ((d0, px0) :: (d1, px1) :: rest2) [(d0, w)] tc).map TrackState.value = _
  have hTS : trackStates ((d0, px0) :: (d1, px1) :: rest2) [(d0, w)] tc =
      ⟨d0, px0, 1, sh0, cash0⟩ :: (⟨d1, px1, v1, sh1, cash1⟩ : TrackState) ::
        rest2.map (fun q => ⟨q.1, q.2,
          (List.zipWith (fun sh p => sh * p) sh1 q.2).sum + cash1, sh1, cash1⟩) := by
    simp only [trackStates, scanTail, hsh0, hstep, hmark]
  rw [hTS]
  simp [List.map_map, Function.comp]

/-- C3 counterexample: three dates, two instruments, prices
A: 1, 2, 4 and B: 1, 1, 1, a single weight row (1/2, 1/2) at the first
date, zero transaction cost.  The code outputs value[2] = 9/4 because it
re-normalizes the holdings at the first step, while the claimed static
buy-and-hold path sum(shares0*price[2]) + cash0 equals 5/2. -/
theorem make_track_static_path_counterexample :
    make_track [((0 : ℤ), [(1 : ℚ), 1]), (1, [2, 1]), (2, [4, 1])]
        [((0 : ℤ), [(1 : ℚ) / 2, 1 / 2])] 0 = [1, 3 / 2, 9 / 4] ∧
      (List.zipWith (fun sh p => sh * p)
            (List.zipWith (fun a b => a / b) [(1 : ℚ) / 2, 1 / 2] [(1 : ℚ), 1])
            [(4 : ℚ), 1]).sum
          + (1 - (List.zipWith (fun s p => s * p)
              (List.zipWith (fun a b => a / b) [(1 : ℚ) / 2, 1 / 2] [(1 : ℚ), 1])
              [(1 : ℚ), 1]).sum) = 5 / 2 ∧
      ((9 : ℚ) / 4) ≠ 5 / 2 := by
  refine ⟨?_, by norm_num, by norm_num⟩
  norm_num [make_track, trackStates, scanTail, trackStep, List.find?]
  rfl

/-- Witness for the amended single-schedule behaviour on a concrete
three-date, two-instrument table. -/
theorem make_track_single_schedule_witness :
    (∀ p ∈ [(1 : ℚ), 1], p ≠ 0) ∧
      (∀ q ∈ [((1 : ℤ), [(2 : ℚ), 1]), (3, [4, 1])], q.1 ≠ (0 : ℤ)) ∧
      make_track [((0 : ℤ), [(1 : ℚ), 1]), (1, [2, 1]), (3, [4, 1])]
        [((0 : ℤ), [(1 : ℚ) / 2, 1 / 2])] 0 = [1, 3 / 2, 9 / 4] := by
  have hpx : ∀ p ∈ [(1 : ℚ), 1], p ≠ 0 := by norm_num
  have hd : ∀ q ∈ [((1 : ℤ), [(2 : ℚ), 1]), (3, [4, 1])], q.1 ≠ (0 : ℤ) := by norm_num
  refine ⟨hpx, hd, ?_⟩
  have h := make_track_single_schedule 0 [(1 : ℚ), 1] [((1 : ℤ), [(2 : ℚ), 1]), (3, [4, 1])]
    [(1 : ℚ) / 2, 1 / 2] 0 hpx hd
  rw [h]
  norm_num

theorem range_map_getElem? {β : Type} (g : ℕ → β) (k i : ℕ) (hik : i < k) :
    ((List.range k).map g)[i]? = some (g i) := by
  rw [List.getElem?_map]
  simp [List.getElem?_range, hik]

theorem window_end_lt (n s f i : ℕ) (hf : 0 < f) (hiw : i < (n - s) / f) :
    i * f + s < n := by
  have h1 : (i + 1) * f ≤ ((n - s) / f) * f := Nat.mul_le_mul_right f hiw
  have h2 : ((n - s) / f) * f ≤ n - s := Nat.div_mul_le_self _ _
  have h3 : i * f + f ≤ n - s := by
    have : (i + 1) * f = i * f + f := by ring
    omega
  omega

theorem rescaleRow_length (std : List ℚ → ℚ) (y : List ℚ) (x : List (List ℚ))
    (sample_length frequency i : ℕ) (z : List ℚ) :
    (rescaleRow std y x sample_length frequency i z).length = min z.length (numCols x) := by
  simp [rescaleRow, colStds, List.length_zipWith]

theorem range_map_pairwise {β : Type} (g : ℕ → β) (k : ℕ) (R : β → β → Prop)
    (h : ∀ i j, i < k → j < k → i < j → R (g i) (g j)) :
    ((List.range k).map g).Pairwise R := by
  rw [List.pairwise_map, List.pairwise_iff_getElem]
  intro i j hi2 hj2 hij
  simp only [List.getElem_range]
  exact h i j (by simpa using hi2) (by simpa using hj2) hij

/-- C8: the Lasso variant with lambda_ = 0 produces literally the same
weight schedule (same end-date keys, same rescaled rows) as the
standardized OLS variant on the same inputs: the only difference between
the two functions is the penalty coefficient lambda_ * n, which vanishes.
In exact arithmetic the outputs are identical, which implies the claimed
agreement to numerical tolerance. -/
theorem lasso_zero_eq_ols_ER (solver : WindowProblem → SolveResult) (std : List ℚ → ℚ)
    (index : List ℤ) (y : List ℚ) (x : List (List ℚ)) (sample_length frequency : ℕ)
    (lo hi wsum : Option ℚ) :
    lasso_regression_ER solver std index y x sample_length frequency 0 lo hi wsum =
      ols_regression_ER solver std index y x sample_length frequency lo hi wsum := by
  simp [lasso_regression_ER, ols_regression_ER, zero_mul]

/-- C6: the per-window problems assembled by the plain and standardized
estimators carry the given weight_sum as their equality constraint; the
constraint restricts a candidate vector if and only if weight_sum is not
the NaN sentinel (modelled as none).  In particular weight_sum = some 0
is a real zero-sum constraint, while none constrains nothing. -/
theorem weight_sum_constraint_semantics (std : List ℚ → ℚ) (y : List ℚ) (x : List (List ℚ))
    (sample_length frequency : ℕ) (lo hi wsum : Option ℚ) (penalty : ℚ) (i : ℕ) :
    (olsWindowProblem y x sample_length frequency lo hi wsum i).wsum = wsum ∧
      (erWindowProblem std y x sample_length frequency lo hi wsum penalty i).wsum = wsum ∧
      (wsum = none → ∀ z : List ℚ,
        satisfiesConstraint (olsWindowProblem y x sample_length frequency lo hi wsum i) z ∧
          satisfiesConstraint
            (erWindowProblem std y x sample_length frequency lo hi wsum penalty i) z) ∧
      (∀ sv : ℚ, wsum = some sv → ∀ z : List ℚ,
        (satisfiesConstraint (olsWindowProblem y x sample_length frequency lo hi wsum i) z ↔
            z.sum = sv) ∧
          (satisfiesConstraint
              (erWindowProblem std y x sample_length frequency lo hi wsum penalty i) z ↔
            z.sum = sv)) := by
  refine ⟨rfl, rfl, ?_, ?_⟩
  · rintro rfl z
    constructor <;> (intro s hs; simp [olsWindowProblem, erWindowProblem] at hs)
  · rintro sv rfl z
    constructor <;>
      simp [satisfiesConstraint, olsWindowProblem, erWindowProblem]

/-- Witness for the weight-sum constraint semantics: with weight_sum =
some 0 the vector (1, -1) satisfies the constraint and (1, 1) violates
it; with weight_sum = none any vector satisfies it. -/
theorem weight_sum_constraint_semantics_witness :
    satisfiesConstraint (olsWindowProblem [(0 : ℚ), 0] [[(1 : ℚ)], [1]] 1 1 none none
        (some 0) 0) [1, -1] ∧
      ¬ satisfiesConstraint (olsWindowProblem [(0 : ℚ), 0] [[(1 : ℚ)], [1]] 1 1 none none
        (some 0) 0) [1, 1] ∧
      satisfiesConstraint (olsWindowProblem [(0 : ℚ), 0] [[(1 : ℚ)], [1]] 1 1 none none
        none 0) [5] := by
  have h := weight_sum_constraint_semantics zeroStd [(0 : ℚ), 0] [[(1 : ℚ)], [1]] 1 1
    none none (some 0) 0 0
  have h2 := weight_sum_constraint_semantics zeroStd [(0 : ℚ), 0] [[(1 : ℚ)], [1]] 1 1
    none none none 0 0
  refine ⟨((h.2.2.2 0 rfl [1, -1]).1).mpr (by norm_num), ?_, (h2.2.2.1 rfl [5]).1⟩
  intro hcon
  have := ((h.2.2.2 0 rfl [1, 1]).1).mp hcon
  norm_num at this

/-- C4 (amended): every estimator stores the solver's returned vector
res.x for every window unconditionally; the convergence flag is never
consulted, so a non-converged window's row is filled exactly like a
converged one, and all windows are attempted and returned. -/
theorem regression_stores_solver_output (solver : WindowProblem → SolveResult)
    (std : List ℚ → ℚ) (index : List ℤ) (y : List ℚ) (x : List (List ℚ))
    (sample_length frequency : ℕ) (lambda_ : ℚ) (lo hi wsum : Option ℚ) (i : ℕ)
    (hiw : i < (x.length - sample_length) / frequency) :
    ((ols_regression solver index y x sample_length frequency lo hi wsum)[i]?).map
        Prod.snd =
        some ((solver (olsWindowProblem y x sample_length frequency lo hi wsum i)).x) ∧
      ((ols_regression_ER solver std index y x sample_length frequency lo hi wsum)[i]?).map
          Prod.snd =
        some (rescaleRow std y x sample_length frequency i
          ((solver (erWindowProblem std y x sample_length frequency lo hi wsum 0 i)).x)) ∧
      ((lasso_regression_ER solver std index y x sample_length frequency lambda_ lo hi
            wsum)[i]?).map Prod.snd =
        some (rescaleRow std y x sample_length frequency i
          ((solver (erWindowProblem std y x sample_length frequency lo hi wsum
            (lambda_ * (x.length : ℚ)) i)).x)) := by
  refine ⟨?_, ?_, ?_⟩
  · rw [ols_regression, range_map_getElem? _ _ i hiw]
    rfl
  · rw [ols_regression_ER, range_map_getElem? _ _ i hiw]
    rfl
  · rw [lasso_regression_ER, range_map_getElem? _ _ i hiw]
    rfl

/-- C4 counterexample: a solver that fails to converge (success = false)
still has its returned vector [42] stored as both windows' rows; nothing
in the output marks either window as unavailable, refuting the claimed
failure propagation. -/
theorem regression_failure_ignored_counterexample :
    ols_regression failSolver [0, 1, 2] [(0 : ℚ), 0, 0] [[(1 : ℚ)], [1], [1]] 1 1
        none none none = [(1, [42]), (2, [42])] ∧
      (failSolver (olsWindowProblem [(0 : ℚ), 0, 0] [[(1 : ℚ)], [1], [1]] 1 1
          none none none 0)).success = false ∧
      (failSolver (olsWindowProblem [(0 : ℚ), 0, 0] [[(1 : ℚ)], [1], [1]] 1 1
          none none none 0)).x = [42] := by
  refine ⟨?_, rfl, rfl⟩
  norm_num [ols_regression, failSolver, List.range_succ]

/-- Witness for the amended store-unconditionally property at a concrete
instance with the trivial converging solver. -/
theorem regression_stores_solver_output_witness :
    0 < (3 - 1) / 1 ∧
      ((ols_regression okSolver [0, 1, 2] [(0 : ℚ), 0, 0] [[(1 : ℚ)], [1], [1]] 1 1
            none none none)[0]?).map Prod.snd =
        some ((okSolver (olsWindowProblem [(0 : ℚ), 0, 0] [[(1 : ℚ)], [1], [1]] 1 1
          none none none 0)).x) := by
  constructor
  · norm_num
  · exact (regression_stores_solver_output okSolver zeroStd [0, 1, 2] [(0 : ℚ), 0, 0]
      [[(1 : ℚ)], [1], [1]] 1 1 5 none none none 0 (by norm_num)).1

/-- C5: each estimator returns exactly
floor((n - sample_length)/frequency) rows, keyed by the strictly
increasing window end dates index[i*frequency + sample_length], with one
entry per regressor column in every row (the solver returns one
coefficient per column, as scipy does for an m-dimensional start
vector). -/
theorem regression_schedule_shape (solver : WindowProblem → SolveResult) (std : List ℚ → ℚ)
    (index : List ℤ) (y : List ℚ) (x : List (List ℚ)) (sample_length frequency : ℕ)
    (lambda_ : ℚ) (lo hi wsum : Option ℚ)
    (hf : 0 < frequency) (hn : sample_length < x.length)
    (hlen : x.length ≤ index.length)
    (hmono : index.Pairwise (· < ·))
    (hsolver : ∀ p, (solver p).x.length = numCols x) :
    (ols_regression solver index y x sample_length frequency lo hi wsum).length =
        (x.length - sample_length) / frequency ∧
      (ols_regression_ER solver std index y x sample_length frequency lo hi wsum).length =
        (x.length - sample_length) / frequency ∧
      (lasso_regression_ER solver std index y x sample_length frequency lambda_ lo hi
          wsum).length = (x.length - sample_length) / frequency ∧
      (∀ i, i < (x.length - sample_length) / frequency →
        (∃ row, (ols_regression solver index y x sample_length frequency lo hi wsum)[i]? =
            some (index.getD (i * frequency + sample_length) 0, row) ∧
          row.length = numCols x) ∧
        (∃ row, (ols_regression_ER solver std index y x sample_length frequency lo hi
              wsum)[i]? =
            some (index.getD (i * frequency + sample_length) 0, row) ∧
          row.length = numCols x) ∧
        (∃ row, (lasso_regression_ER solver std index y x sample_length frequency lambda_
              lo hi wsum)[i]? =
            some (index.getD (i * frequency + sample_length) 0, row) ∧
          row.length = numCols x)) ∧
      (ols_regression solver index y x sample_length frequency lo hi wsum).Pairwise
        (fun a b => a.1 < b.1) ∧
      (ols_regression_ER solver std index y x sample_length frequency lo hi wsum).Pairwise
        (fun a b => a.1 < b.1) ∧
      (lasso_regression_ER solver std index y x sample_length frequency lambda_ lo hi
          wsum).Pairwise (fun a b => a.1 < b.1) := by
  have hkey : ∀ i j : ℕ, i < (x.length - sample_length) / frequency →
      j < (x.length - sample_length) / frequency → i < j →
      index.getD (i * frequency + sample_length) 0 <
        index.getD (j * frequency + sample_length) 0 := by
    intro i j hik hjk hij
    have hi2 : i * frequency + sample_length < x.length :=
      window_end_lt x.length sample_length frequency i hf hik
    have hj2 : j * frequency + sample_length < x.length :=
      window_end_lt x.length sample_length frequency j hf hjk
    have hlt : i * frequency + sample_length < j * frequency + sample_length := by
      have : i * frequency < j * frequency := mul_lt_mul_of_pos_right hij hf
      omega
    rw [List.getD_eq_getElem index 0 (by omega), List.getD_eq_getElem index 0 (by omega)]
    exact List.pairwise_iff_getElem.mp hmono _ _ _ _ hlt
  refine ⟨by simp [ols_regression], by simp [ols_regression_ER],
    by simp [lasso_regression_ER], ?_, ?_, ?_, ?_⟩
  · intro i hiw
    refine ⟨⟨_, by rw [ols_regression, range_map_getElem? _ _ i hiw], hsolver _⟩,
      ⟨_, by rw [ols_regression_ER, range_map_getElem? _ _ i hiw], ?_⟩,
      ⟨_, by rw [lasso_regression_ER, range_map_getElem? _ _ i hiw], ?_⟩⟩ <;>
      rw [rescaleRow_length, hsolver, min_self]
  · exact range_map_pairwise _ _ _ (fun i j hik hjk hij => hkey i j hik hjk hij)
  · exact range_map_pairwise _ _ _ (fun i j hik hjk hij => hkey i j hik hjk hij)
  · exact range_map_pairwise _ _ _ (fun i j hik hjk hij => hkey i j hik hjk hij)

/-- Witness for the schedule-shape property on a concrete three-row
table with one regressor column, sample_length 1 and frequency 1. -/
theorem regression_schedule_shape_witness :
    0 < 1 ∧ 1 < 3 ∧
      (ols_regression okSolver [10, 20, 30] [(0 : ℚ), 0, 0] [[(1 : ℚ)], [2], [3]] 1 1
          none none none).length = 2 ∧
      (ols_regression_ER okSolver zeroStd [10, 20, 30] [(0 : ℚ), 0, 0] [[(1 : ℚ)], [2], [3]]
          1 1 none none none).length = 2 ∧
      (lasso_regression_ER okSolver zeroStd [10, 20, 30] [(0 : ℚ), 0, 0]
          [[(1 : ℚ)], [2], [3]] 1 1 5 none none none).length = 2 ∧
      (ols_regression okSolver [10, 20, 30] [(0 : ℚ), 0, 0] [[(1 : ℚ)], [2], [3]] 1 1
          none none none).Pairwise (fun a b => a.1 < b.1) := by
  have h := regression_schedule_shape okSolver zeroStd [10, 20, 30] [(0 : ℚ), 0, 0]
    [[(1 : ℚ)], [2], [3]] 1 1 5 none none none (by norm_num) (by norm_num) (by norm_num)
    (by norm_num) (fun p => rfl)
  exact ⟨by norm_num, by norm_num, h.1, h.2.1, h.2.2.1, h.2.2.2.2.1⟩

/-- C7: in the standardized estimators, a regressor column whose sample
standard deviation over the window is zero is neutralized: every
standardized row of the window problem carries a literal zero in that
column (no division fault is possible in the total model), and the
window's fit still runs and produces its output row. -/
theorem zero_variance_column_neutralized (solver : WindowProblem → SolveResult)
    (std : List ℚ → ℚ) (index : List ℤ) (y : List ℚ) (x : List (List ℚ))
    (sample_length frequency : ℕ) (lambda_ : ℚ) (lo hi wsum : Option ℚ) (penalty : ℚ)
    (i c : ℕ)
    (hc : c < numCols x)
    (hrect : ∀ r ∈ x, r.length = numCols x)
    (hz : std (colVals (locSlice x frequency sample_length i) c) = 0)
    (hiw : i < (x.length - sample_length) / frequency) :
    (∀ r ∈ (erWindowProblem std y x sample_length frequency lo hi wsum penalty i).x,
        r[c]? = some 0) ∧
      (∃ row, (ols_regression_ER solver std index y x sample_length frequency lo hi
          wsum)[i]? = some (index.getD (i * frequency + sample_length) 0, row)) ∧
      (∃ row, (lasso_regression_ER solver std index y x sample_length frequency lambda_
          lo hi wsum)[i]? = some (index.getD (i * frequency + sample_length) 0, row)) := by
  refine ⟨?_, ⟨_, by rw [ols_regression_ER, range_map_getElem? _ _ i hiw]⟩,
    ⟨_, by rw [lasso_regression_ER, range_map_getElem? _ _ i hiw]⟩⟩
  intro r hr
  simp only [erWindowProblem, standardizeRows, List.mem_map] at hr
  obtain ⟨r0, hr0mem, hr0⟩ := hr
  have hr0x : r0 ∈ x :=
    List.drop_subset _ x (List.take_subset _ _ hr0mem)
  have hr0len : r0.length = numCols x := hrect r0 hr0x
  have hstds : (colStds std (numCols x) (locSlice x frequency sample_length i))[c]? =
      some (stdOpt std (colVals (locSlice x frequency sample_length i) c)) := by
    rw [colStds]
    exact range_map_getElem? _ _ c hc
  have hnone : stdOpt std (colVals (locSlice x frequency sample_length i) c) = none := by
    simp [stdOpt, hz]
  have hr0c : r0[c]? = some r0[c] := List.getElem?_eq_getElem (by omega)
  rw [← hr0]
  rw [zipWith_getElem?_some r0 _ c r0[c] _ hr0c hstds, hnone]

/-- Witness for the zero-variance neutralization: a constant regressor
column with the identically-zero standard deviation function; its window
appears standardized to zeros and the window still yields a row. -/
theorem zero_variance_column_neutralized_witness :
    0 < numCols [[(1 : ℚ)], [1]] ∧
      zeroStd (colVals (locSlice [[(1 : ℚ)], [1]] 1 1 0) 0) = 0 ∧
      (∀ r ∈ (erWindowProblem zeroStd [(0 : ℚ), 0] [[(1 : ℚ)], [1]] 1 1 none none none
          0 0).x, r[0]? = some 0) ∧
      (∃ row, (ols_regression_ER okSolver zeroStd [(0 : ℤ), 1] [(0 : ℚ), 0]
          [[(1 : ℚ)], [1]] 1 1 none none none)[0]? =
        some (([(0 : ℤ), 1]).getD (0 * 1 + 1) 0, row)) := by
  have h := zero_variance_column_neutralized okSolver zeroStd [(0 : ℤ), 1] [(0 : ℚ), 0]
    [[(1 : ℚ)], [1]] 1 1 5 none none none 0 0 0 (by norm_num [numCols])
    (by intro r hr; fin_cases hr <;> rfl) rfl (by norm_num)
  exact ⟨by norm_num [numCols], rfl, h.1, h.2.1⟩
